import Mathlib

set_option maxHeartbeats 2000000
set_option linter.unusedVariables false

/-! Shallow embedding of the foundation_lib regular-expression engine and of
    the increment-and-wrap arithmetic helpers from foundation/math.h.

    The regular-expression engine (compiler `regex_compile`, in-place variant
    `regex_parse`, matcher `regex_match`) is modelled from the specification,
    since the engine implementation file is not among the provided sources;
    only its test suite is.  The data model follows the specification: a
    compiled program is a sequence of tagged instructions (literal, any-char,
    class, group markers, alternation, anchors, quantifier-wrapped
    sub-sequence), and the matcher is a backtracking engine that enumerates
    candidate end states in backtracking priority order (greedy quantifiers
    longest-first, lazy quantifiers shortest-first, alternation branches
    left-to-right), taking the first success.  Recursion depth of the
    backtracking search is bounded by an explicit fuel argument; the
    top-level entry point supplies a fuel value that dominates the depth of
    the search (which decreases lexicographically in remaining subject
    length, remaining program size and remaining mandatory repetitions). -/

namespace Foundation

/-- Byte values of a pattern or subject string (ASCII). -/
def strBytes (s : String) : List Nat :=
  s.data.map Char.toNat

/-- Predefined meta-classes of the pattern grammar. -/
inductive Meta where
  | space
  | nonspace
  | digit
  | nondigit
  | word
  | nonword
deriving DecidableEq, Repr

/-- Whitespace bytes recognised by the whitespace meta-class. -/
def isSpaceByte (b : Nat) : Bool :=
  decide (b = 32 ∨ b = 9 ∨ b = 10 ∨ b = 11 ∨ b = 12 ∨ b = 13)

/-- Decimal digit bytes. -/
def isDigitByte (b : Nat) : Bool :=
  decide (48 ≤ b ∧ b ≤ 57)

/-- Word bytes: letters, digits and underscore. -/
def isWordByte (b : Nat) : Bool :=
  decide ((65 ≤ b ∧ b ≤ 90) ∨ (97 ≤ b ∧ b ≤ 122)) || isDigitByte b || decide (b = 95)

/-- Byte test of one meta-class. -/
def metaMatch : Meta → Nat → Bool
  | .space, b => isSpaceByte b
  | .nonspace, b => ! isSpaceByte b
  | .digit, b => isDigitByte b
  | .nondigit, b => ! isDigitByte b
  | .word, b => isWordByte b
  | .nonword, b => ! isWordByte b

/-- Character class: explicit bytes, meta-class flags and a negate flag. -/
structure ClassSpec where
  bytes : List Nat
  metas : List Meta
  negate : Bool
deriving DecidableEq, Repr

/-- Byte test of a character class. -/
def classMatch (c : ClassSpec) (b : Nat) : Bool :=
  let base := c.bytes.contains b || c.metas.any (fun m => metaMatch m b)
  if c.negate then ! base else base

/-- Tagged instruction of a compiled program, following the specification's
    instruction set.  The `invalid` case stands for an unrecognized opcode in
    a corrupted program buffer. -/
inductive Inst where
  | lit (b : Nat)
  | anyChar
  | cls (c : ClassSpec)
  | groupStart (idx : Nat)
  | groupEnd (idx : Nat)
  | alt (branches : List (List Inst))
  | anchorStart
  | anchorEnd
  | quant (low : Nat) (high : Option Nat) (greedy : Bool) (body : List Inst)
  | invalid (b : Nat)
deriving Repr

mutual

/-- Code size of one instruction, counting nested sub-programs (the model of
    the byte length its encoding occupies in the flat code buffer). -/
def sizeI : Inst → Nat
  | .alt brs => 1 + sizeB brs
  | .quant _ _ _ body => 2 + sizeL body
  | _ => 1

/-- Code size of an instruction sequence. -/
def sizeL : List Inst → Nat
  | [] => 0
  | i :: r => sizeI i + sizeL r

/-- Code size of a list of alternation branches. -/
def sizeB : List (List Inst) → Nat
  | [] => 1
  | b :: r => 1 + sizeL b + sizeB r

end

/-- Compiled program: instruction sequence plus declared capture-group count. -/
structure Prog where
  insts : List Inst
  groupCount : Nat
deriving Repr

/-- Hexadecimal digit bytes. -/
def isHexByte (b : Nat) : Bool :=
  decide ((48 ≤ b ∧ b ≤ 57) ∨ (97 ≤ b ∧ b ≤ 102) ∨ (65 ≤ b ∧ b ≤ 70))

/-- Value of a hexadecimal digit byte. -/
def hexVal (b : Nat) : Nat :=
  if b ≤ 57 then b - 48 else if b ≤ 70 then b - 55 else b - 87

/-- Meta-class escape letters. -/
def escMeta : Nat → Option Meta
  | 115 => some .space
  | 83 => some .nonspace
  | 100 => some .digit
  | 68 => some .nondigit
  | 119 => some .word
  | 87 => some .nonword
  | _ => none

/-- Single-character escapes for control bytes and the backslash itself. -/
def escControl : Nat → Option Nat
  | 92 => some 92
  | 110 => some 10
  | 114 => some 13
  | 116 => some 9
  | 118 => some 11
  | 102 => some 12
  | 48 => some 0
  | _ => none

/-- Parse the remainder of an escape sequence (the bytes after the
    backslash): a meta-class letter takes priority, then a two-hex-digit
    literal byte, then a control-character escape; anything else is a
    compile error. -/
def parseEsc : List Nat → Option ((Nat ⊕ Meta) × List Nat)
  | [] => none
  | c :: rest =>
    match escMeta c with
    | some m => some (Sum.inr m, rest)
    | none =>
      match rest with
      | c2 :: r2 =>
        if isHexByte c && isHexByte c2 then
          some (Sum.inl (16 * hexVal c + hexVal c2), r2)
        else
          match escControl c with
          | some b => some (Sum.inl b, rest)
          | none => none
      | [] =>
        match escControl c with
        | some b => some (Sum.inl b, rest)
        | none => none

/-- Parse the items of a bracketed character class up to the closing
    bracket; running out of input is the unterminated-class compile error. -/
def parseClassItems : Nat → List Nat → List Nat → List Meta →
    Option (List Nat × List Meta × List Nat)
  | 0, _, _, _ => none
  | _+1, [], _, _ => none
  | _+1, 93 :: rest, bs, ms => some (bs, ms, rest)
  | fuel+1, 92 :: rest, bs, ms =>
    match parseEsc rest with
    | some (Sum.inl b, r2) => parseClassItems fuel r2 (bs ++ [b]) ms
    | some (Sum.inr m, r2) => parseClassItems fuel r2 bs (ms ++ [m])
    | none => none
  | fuel+1, c :: rest, bs, ms => parseClassItems fuel rest (bs ++ [c]) ms

/-- Parse a bracketed character class (after the opening bracket), honouring
    a leading negation marker. -/
def parseClass (fuel : Nat) (p : List Nat) : Option (ClassSpec × List Nat) :=
  match p with
  | 94 :: rest =>
    match parseClassItems fuel rest [] [] with
    | some (bs, ms, r) => some (⟨bs, ms, true⟩, r)
    | none => none
  | _ =>
    match parseClassItems fuel p [] [] with
    | some (bs, ms, r) => some (⟨bs, ms, false⟩, r)
    | none => none

/-- Whether a parsed atom may be wrapped by a quantifier (anchors may not,
    and a quantifier may not be quantified again). -/
def quantifiable : List Inst → Bool
  | [Inst.anchorStart] => false
  | [Inst.anchorEnd] => false
  | [Inst.quant _ _ _ _] => false
  | _ => true

/-- Concatenated instruction sequence of a reversed atom accumulator. -/
def finishAtoms (acc : List (List Inst)) : List Inst :=
  acc.reverse.flatten

/-- Recursive-descent pattern parser.  `mode = false` parses one branch (a
    sequence of atoms, stopping at a branch separator, a closing parenthesis
    or the end of the pattern); `mode = true` parses an alternation (a
    nonempty list of branches).  `inGroup` tells whether a closing
    parenthesis is legal here; `g` is the next capture-group index, assigned
    in opening order; `acc` holds the parsed atoms of the current branch in
    reverse; `atStart` is true only at the very start of the whole pattern,
    where a caret is an anchor.  Errors (dangling quantifier, unbalanced
    parenthesis, unterminated class, invalid escape) yield `none`. -/
def parseRun : Nat → Bool → Bool → List Nat → Nat → List (List Inst) → Bool →
    Option (List Inst × List Nat × Nat)
  | 0, _, _, _, _, _, _ => none
  | fuel+1, true, inGroup, p, g, _, atStart =>
    match parseRun fuel false inGroup p g [] atStart with
    | some (insts, rest, g1) =>
      match rest with
      | 124 :: rest1 =>
        match parseRun fuel true inGroup rest1 g1 [] false with
        | some ([Inst.alt brs], rest2, g2) => some ([Inst.alt (insts :: brs)], rest2, g2)
        | some (insts2, rest2, g2) => some ([Inst.alt [insts, insts2]], rest2, g2)
        | none => none
      | _ => some (insts, rest, g1)
    | none => none
  | fuel+1, false, inGroup, [], g, acc, _ =>
    if inGroup then none else some (finishAtoms acc, [], g)
  | fuel+1, false, inGroup, c :: rest, g, acc, atStart =>
    if c = 41 then
      if inGroup then some (finishAtoms acc, c :: rest, g) else none
    else if c = 124 then
      some (finishAtoms acc, c :: rest, g)
    else if c = 40 then
      match parseRun fuel true true rest (g + 1) [] false with
      | some (inner, 41 :: rest2, g1) =>
        parseRun fuel false inGroup rest2 g1
          (([Inst.groupStart g] ++ inner ++ [Inst.groupEnd g]) :: acc) false
      | _ => none
    else if c = 42 ∨ c = 43 ∨ c = 63 then
      match acc with
      | [] => none
      | a :: t =>
        if quantifiable a then
          let lo : Nat := if c = 43 then 1 else 0
          let hi : Option Nat := if c = 63 then some 1 else none
          match rest with
          | 63 :: rest2 => parseRun fuel false inGroup rest2 g ([Inst.quant lo hi false a] :: t) false
          | _ => parseRun fuel false inGroup rest g ([Inst.quant lo hi true a] :: t) false
        else none
    else if c = 46 then
      parseRun fuel false inGroup rest g ([Inst.anyChar] :: acc) false
    else if c = 94 then
      if atStart then parseRun fuel false inGroup rest g ([Inst.anchorStart] :: acc) false
      else parseRun fuel false inGroup rest g ([Inst.lit 94] :: acc) false
    else if c = 36 then
      if rest.isEmpty then parseRun fuel false inGroup rest g ([Inst.anchorEnd] :: acc) false
      else parseRun fuel false inGroup rest g ([Inst.lit 36] :: acc) false
    else if c = 91 then
      match parseClass fuel rest with
      | some (cs, rest1) => parseRun fuel false inGroup rest1 g ([Inst.cls cs] :: acc) false
      | none => none
    else if c = 92 then
      match parseEsc rest with
      | some (Sum.inl b, rest1) => parseRun fuel false inGroup rest1 g ([Inst.lit b] :: acc) false
      | some (Sum.inr m, rest1) =>
        parseRun fuel false inGroup rest1 g ([Inst.cls ⟨[], [m], false⟩] :: acc) false
      | none => none
    else
      parseRun fuel false inGroup rest g ([Inst.lit c] :: acc) false

/-- Compile a pattern into a program, or fail with `none`; compilation is
    atomic in that no partially built program is ever returned. -/
def regex_compile (pat : List Nat) : Option Prog :=
  match parseRun (2 * pat.length + 4) true false pat 0 [] true with
  | some (insts, [], g) => some ⟨insts, g⟩
  | _ => none

/-- In-place compile variant: same validation as `regex_compile`, but the
    program is written into caller-supplied storage of the given code
    capacity instead of allocated, so it additionally fails when the
    compiled code does not fit.  Modelled from the spec: the specification
    describes the in-place variant only as applying identical validation
    rules into caller storage; the fixed-capacity failure is forced by the
    test suite, which expects a zero-initialized program structure to reject
    the valid pattern "test". -/
def regex_parse (capacity : Nat) (pat : List Nat) : Bool :=
  match regex_compile pat with
  | none => false
  | some pr => decide (sizeL pr.insts ≤ capacity)

/-- Working capture table: staged (start, end) offsets per group, with an
    unset sentinel. -/
abbrev Caps := List (Option (Nat × Nat))

/-- Staged start offset of a group, defaulting to the current position. -/
def capStart : Option (Nat × Nat) → Nat → Nat
  | some se, _ => se.1
  | none, d => d

/-- Decrement a quantifier upper bound. -/
def decOpt : Option Nat → Option Nat
  | none => none
  | some k => some (k - 1)

mutual

/-- Backtracking matcher.  Runs the instruction sequence against subject `s`
    from position `pos` with staged captures `caps`, and returns the list of
    all reachable end states `(endPos, caps)` in backtracking priority order
    (the head is the state the backtracking engine commits to first).
    Alternation branches are tried left-to-right; an unrecognized
    instruction aborts the current attempt with no result.  The fuel bounds
    recursion depth and decreases on every call. -/
def matchL (s : List Nat) : Nat → List Inst → Nat → Caps → List (Nat × Caps)
  | 0, _, _, _ => []
  | _+1, [], pos, caps => [(pos, caps)]
  | f+1, .lit b :: rest, pos, caps =>
    if pos < s.length ∧ s.getD pos 0 = b then matchL s f rest (pos+1) caps else []
  | f+1, .anyChar :: rest, pos, caps =>
    if pos < s.length then matchL s f rest (pos+1) caps else []
  | f+1, .cls c :: rest, pos, caps =>
    if pos < s.length ∧ classMatch c (s.getD pos 0) = true then matchL s f rest (pos+1) caps
    else []
  | f+1, .groupStart i :: rest, pos, caps =>
    matchL s f rest pos (caps.set i (some (pos, pos)))
  | f+1, .groupEnd i :: rest, pos, caps =>
    matchL s f rest pos (caps.set i (some (capStart (caps.getD i none) pos, pos)))
  | f+1, .anchorStart :: rest, pos, caps => if pos = 0 then matchL s f rest pos caps else []
  | f+1, .anchorEnd :: rest, pos, caps => if pos = s.length then matchL s f rest pos caps else []
  | _+1, .alt [] :: _, _, _ => []
  | f+1, .alt (br :: more) :: rest, pos, caps =>
    matchL s f (br ++ rest) pos caps ++ matchL s f (.alt more :: rest) pos caps
  | f+1, .quant lo hi g body :: rest, pos, caps =>
    (starL s f lo hi g body pos caps).flatMap (fun pc => matchL s f rest pc.1 pc.2)
  | _+1, .invalid _ :: _, _, _ => []

/-- Quantifier expansion.  Enumerates the end states of repeating `body`
    between `lo` and `hi` times (unbounded when `hi = none`) starting at
    `pos`: mandatory repetitions first, then optional ones, longest-first
    when greedy and shortest-first when lazy; an optional repetition that
    consumes nothing is not repeated further (standard empty-progress
    rule). -/
def starL (s : List Nat) : Nat → Nat → Option Nat → Bool → List Inst → Nat → Caps →
    List (Nat × Caps)
  | 0, _, _, _, _, _, _ => []
  | f+1, lo+1, hi, g, body, pos, caps =>
    (matchL s f body pos caps).flatMap (fun pc => starL s f lo (decOpt hi) g body pc.1 pc.2)
  | _+1, 0, some 0, _, _, pos, caps => [(pos, caps)]
  | f+1, 0, none, g, body, pos, caps =>
    let more := (matchL s f body pos caps).flatMap
      (fun pc => if pos < pc.1 then starL s f 0 none g body pc.1 pc.2 else [])
    if g then more ++ [(pos, caps)] else (pos, caps) :: more
  | f+1, 0, some (k+1), g, body, pos, caps =>
    let more := (matchL s f body pos caps).flatMap
      (fun pc => if pos < pc.1 then starL s f 0 (some k) g body pc.1 pc.2 else [])
    if g then more ++ [(pos, caps)] else (pos, caps) :: more

end

/-- Fuel supplied to the matcher for one attempt: dominates the depth of the
    backtracking search, which decreases lexicographically in (remaining
    subject, remaining program size, remaining mandatory repetitions). -/
def bigFuel (insts : List Inst) (len : Nat) : Nat :=
  (sizeL insts + 4) * (sizeL insts + 4) * (2 * len + 8)

/-- Reported capture span (offset, length) of one staged capture; the unset
    sentinel is reported as the empty span. -/
def spanOf : Option (Nat × Nat) → Nat × Nat
  | none => (0, 0)
  | some se => (se.1, se.2 - se.1)

/-- Write the staged captures into the caller's capture array: entry `i` is
    written for `i` below both the capacity and the group count; excess
    entries are left unchanged. -/
def commitGo (caps : Caps) (capacity : Nat) : Nat → List (Nat × Nat) → List (Nat × Nat)
  | _, [] => []
  | i, a :: arr =>
    (if i < capacity ∧ i < caps.length then spanOf (caps.getD i none) else a)
      :: commitGo caps capacity (i+1) arr

/-- Commit staged captures to the caller's array, starting at entry 0. -/
def commitCaptures (caps : Caps) (arr : List (Nat × Nat)) (capacity : Nat) :
    List (Nat × Nat) :=
  commitGo caps capacity 0 arr

/-- Substring search: try a match attempt at each successive start offset
    (at most `k` offsets starting at `pos`), returning the captures of the
    first successful attempt. -/
def searchAt (insts : List Inst) (gc : Nat) (s : List Nat) : Nat → Nat → Option Caps
  | _, 0 => none
  | pos, k+1 =>
    match matchL s (bigFuel insts s.length) insts pos (List.replicate gc none) with
    | pc :: _ => some pc.2
    | [] => searchAt insts gc s (pos+1) k

/-- Match a compiled program (or the null program, which always matches)
    against a subject.  Returns the match result together with the caller's
    capture array after the call: on success the captures of the first
    successful attempt are committed up to `capacity`, on failure the array
    is untouched. -/
def regex_match (op : Option Prog) (s : List Nat) (arr : List (Nat × Nat))
    (capacity : Nat) : Bool × List (Nat × Nat) :=
  match op with
  | none => (true, arr)
  | some pr =>
    match searchAt pr.insts pr.groupCount s 0 (s.length + 1) with
    | some caps => (true, commitCaptures caps arr capacity)
    | none => (false, arr)

/-- Overwrite the first instruction of a program with an unrecognized
    opcode, modelling the test suite's corruption of the first code byte. -/
def corruptProg (pr : Prog) : Prog :=
  ⟨Inst.invalid 128 :: pr.insts.tail, pr.groupCount⟩

/-- Compiled program of the pattern anchored-greedy-star: `^(.*)$`. -/
def progStarG : Prog :=
  ⟨[.anchorStart, .groupStart 0, .quant 0 none true [.anyChar], .groupEnd 0, .anchorEnd], 1⟩

/-- Compiled program of the pattern anchored-lazy-star: `^(.*?)$`. -/
def progStarLzy : Prog :=
  ⟨[.anchorStart, .groupStart 0, .quant 0 none false [.anyChar], .groupEnd 0, .anchorEnd], 1⟩

/-- Compiled program of the pattern anchored-greedy-plus: `^(.+)$`. -/
def progPlusG : Prog :=
  ⟨[.anchorStart, .groupStart 0, .quant 1 none true [.anyChar], .groupEnd 0, .anchorEnd], 1⟩

/-- Compiled program of the pattern anchored-lazy-plus: `^(.+?)$`. -/
def progPlusLzy : Prog :=
  ⟨[.anchorStart, .groupStart 0, .quant 1 none false [.anyChar], .groupEnd 0, .anchorEnd], 1⟩

/-- The whitespace meta-class as a character class. -/
def spCls : ClassSpec := ⟨[], [Meta.space], false⟩

/-- The non-whitespace meta-class as a character class. -/
def nspCls : ClassSpec := ⟨[], [Meta.nonspace], false⟩

/-- Compiled program of the alternation pattern `^(\s+|\S+)$`. -/
def progBranch : Prog :=
  ⟨[.anchorStart, .groupStart 0,
    .alt [[.quant 1 none true [.cls spCls]], [.quant 1 none true [.cls nspCls]]],
    .groupEnd 0, .anchorEnd], 1⟩

/-- Compiled program of the unanchored pattern `(TEST REGEX)`. -/
def progExact : Prog :=
  ⟨[.groupStart 0, .lit 84, .lit 69, .lit 83, .lit 84, .lit 32, .lit 82, .lit 69, .lit 71,
    .lit 69, .lit 88, .groupEnd 0], 1⟩

/-- Descending list of positions hi, hi-1, ..., lo (the order in which a
    greedy unbounded quantifier offers its end positions). -/
def descRange (hi lo : Nat) : List Nat :=
  (List.range (hi + 1 - lo)).map (fun k => hi - k)

/-- Ascending list of positions lo, lo+1, ..., hi (the order in which a lazy
    unbounded quantifier offers its end positions). -/
def ascRange (lo hi : Nat) : List Nat :=
  List.range' lo (hi + 1 - lo)

/-- End of the maximal run of bytes satisfying a class, starting at pos. -/
def runEnd (c : ClassSpec) (s : List Nat) (pos : Nat) : Nat :=
  pos + ((s.drop pos).takeWhile (fun b => classMatch c b)).length

/-- Bytes of a subject covered by a reported capture span. -/
def spanStr (s : List Nat) (sp : Nat × Nat) : List Nat :=
  (s.drop sp.1).take sp.2

/-- Interpret a w-bit representation as a signed two's-complement value
    (the C cast to the signed type of the same width). -/
def toSigned (w a : Nat) : Int :=
  if a < 2 ^ (w - 1) then (a : Int) else (a : Int) - 2 ^ w

/-- Representation of an integer value reduced modulo 2^w (the C cast back
    to the unsigned type of width w). -/
def ofSigned (w : Nat) (i : Int) : Nat :=
  (i % ((2 : Int) ^ w)).toNat

/-- Arithmetic (sign-extending) right shift by k bits of a w-bit value, as
    performed by the C right shift of a signed operand: the signed value is
    divided by 2^k rounding toward negative infinity. -/
def sar (w a k : Nat) : Nat :=
  ofSigned w (toSigned w a / ((2 : Int) ^ k))

/-- Subtraction modulo 2^w of w-bit values (unsigned C subtraction). -/
def subWrap (w a b : Nat) : Nat :=
  (a + (2 ^ w - b % 2 ^ w)) % 2 ^ w

/-- Model of math_inc_wrap_uintN from foundation/math.h for the unsigned
    type of width w: increased = val + 1; max_diff = max - val;
    max_diff_nz = ((signed)max_diff | -(signed)max_diff) >> (w - 1);
    max_diff_eqz = ~max_diff_nz;
    result = (increased & max_diff_nz) | (min & max_diff_eqz);
    all arithmetic modulo 2^w. -/
def math_inc_wrap (w val mn mx : Nat) : Nat :=
  let increased := (val + 1) % 2 ^ w
  let max_diff := subWrap w mx val
  let max_diff_nz := sar w (max_diff ||| ofSigned w (- toSigned w max_diff)) (w - 1)
  let max_diff_eqz := max_diff_nz ^^^ (2 ^ w - 1)
  (increased &&& max_diff_nz) ||| (mn &&& max_diff_eqz)

end Foundation

namespace Foundation

/-! Theorems.  First the arithmetic development for math_inc_wrap, then the
    regular-expression engine development. -/

/-- Any reduced representation is below 2^w. -/
theorem ofSigned_lt (w : Nat) (i : Int) : ofSigned w i < 2 ^ w := by
  unfold ofSigned
  have hcast : ((2 : Int) ^ w) = ((2 ^ w : Nat) : Int) := by push_cast; ring
  rw [hcast]
  have hpos : (0 : Int) < ((2 ^ w : Nat) : Int) := by
    have := Nat.two_pow_pos w
    exact_mod_cast this
  have h1 : 0 ≤ i % ((2 ^ w : Nat) : Int) := Int.emod_nonneg i (by omega)
  have h2 : i % ((2 ^ w : Nat) : Int) < ((2 ^ w : Nat) : Int) := Int.emod_lt_of_pos i hpos
  omega

/-- Reduction of a w-bit value is the identity. -/
theorem ofSigned_ofNat (w a : Nat) (h : a < 2 ^ w) : ofSigned w (a : Int) = a := by
  unfold ofSigned
  have hcast : ((2 : Int) ^ w) = ((2 ^ w : Nat) : Int) := by push_cast; ring
  rw [hcast, Int.emod_eq_of_lt (by positivity) (by exact_mod_cast h)]
  omega

/-- Reduction of the negation of a w-bit value. -/
theorem ofSigned_neg (w a : Nat) (h0 : 0 < a) (h : a < 2 ^ w) :
    ofSigned w (- (a : Int)) = 2 ^ w - a := by
  unfold ofSigned
  have hcast : ((2 : Int) ^ w) = ((2 ^ w : Nat) : Int) := by push_cast; ring
  have hrw : - (a : Int) = ((2 ^ w - a : Nat) : Int) + ((2 : Int) ^ w) * (-1) := by
    rw [hcast]; push_cast [Nat.cast_sub (le_of_lt h)]; ring
  rw [hrw, Int.add_mul_emod_self_left,
    Int.emod_eq_of_lt (by positivity) (by rw [hcast]; exact_mod_cast (by omega : 2 ^ w - a < 2 ^ w))]
  omega

/-- Reduction of minus one gives the all-ones value. -/
theorem ofSigned_neg_one (w : Nat) : ofSigned w (-1) = 2 ^ w - 1 := by
  have hw : (0 : Nat) < 2 ^ w := Nat.two_pow_pos w
  unfold ofSigned
  have hcast : ((2 : Int) ^ w) = ((2 ^ w : Nat) : Int) := by push_cast; ring
  have hrw : (-1 : Int) = ((2 ^ w - 1 : Nat) : Int) + ((2 : Int) ^ w) * (-1) := by
    rw [hcast]; push_cast [Nat.cast_sub hw]; ring
  rw [hrw, Int.add_mul_emod_self_left,
    Int.emod_eq_of_lt (by positivity) (by rw [hcast]; exact_mod_cast (by omega : 2 ^ w - 1 < 2 ^ w))]
  omega

/-- A w-bit value whose top half is reached has its top bit set. -/
theorem testBit_top (w x : Nat) (hw : 1 ≤ w) (h1 : 2 ^ (w - 1) ≤ x) (h2 : x < 2 ^ w) :
    Nat.testBit x (w - 1) = true := by
  have hsplit : 2 ^ w = 2 * 2 ^ (w - 1) := by
    conv_lhs => rw [show w = (w - 1) + 1 by omega]
    rw [pow_succ]; ring
  have hdiv : x / 2 ^ (w - 1) = 1 :=
    Nat.div_eq_of_lt_le (by omega) (by omega)
  rw [Nat.testBit_to_div_mod, hdiv]
  decide

/-- Value of the branchless non-zero mask: ((signed)d | -(signed)d) >> (w-1)
    is all ones exactly when d is non-zero. -/
theorem maskVal (w d : Nat) (hw : 1 ≤ w) (hd : d < 2 ^ w) :
    sar w (d ||| ofSigned w (- toSigned w d)) (w - 1) =
      if d = 0 then 0 else 2 ^ w - 1 := by
  have hhalfpos : (0 : Nat) < 2 ^ (w - 1) := Nat.two_pow_pos (w - 1)
  have hsplit : 2 ^ w = 2 * 2 ^ (w - 1) := by
    conv_lhs => rw [show w = (w - 1) + 1 by omega]
    rw [pow_succ]; ring
  by_cases hd0 : d = 0
  · subst hd0
    have h1 : toSigned w 0 = 0 := by unfold toSigned; simp [hhalfpos]
    have h2 : ofSigned w (- toSigned w 0) = 0 := by
      rw [h1]; unfold ofSigned; simp
    rw [h2, if_pos rfl, Nat.zero_or]
    unfold sar
    rw [h1, Int.zero_ediv]
    unfold ofSigned; simp
  · rw [if_neg hd0]
    -- the negated representation
    set neg := ofSigned w (- toSigned w d) with hneg
    have hneglt : neg < 2 ^ w := ofSigned_lt w _
    have horlt : d ||| neg < 2 ^ w := Nat.or_lt_two_pow hd hneglt
    -- the top bit of the or is set
    have htop : Nat.testBit (d ||| neg) (w - 1) = true := by
      rcases lt_or_le d (2 ^ (w - 1)) with hcase | hcase
      · have hts : toSigned w d = (d : Int) := by unfold toSigned; rw [if_pos hcase]
        have hnegval : neg = 2 ^ w - d := by
          rw [hneg, hts, ofSigned_neg w d (by omega) hd]
        have hnegtop : Nat.testBit neg (w - 1) = true := by
          apply testBit_top w neg hw _ (by omega)
          omega
        rw [Nat.testBit_or, hnegtop, Bool.or_true]
      · have hdtop : Nat.testBit d (w - 1) = true := testBit_top w d hw hcase hd
        rw [Nat.testBit_or, hdtop, Bool.true_or]
    have hge : 2 ^ (w - 1) ≤ d ||| neg := Nat.testBit_implies_ge htop
    -- the signed value of the or is in [-2^(w-1), -1]
    have hts : toSigned w (d ||| neg) = ((d ||| neg : Nat) : Int) - 2 ^ w := by
      unfold toSigned; rw [if_neg (by omega)]
    unfold sar
    rw [hts]
    have hcast : ((2 : Int) ^ w) = ((2 ^ w : Nat) : Int) := by push_cast; ring
    have hcast2 : ((2 : Int) ^ (w - 1)) = ((2 ^ (w - 1) : Nat) : Int) := by push_cast; ring
    have hne : ((2 : Int) ^ (w - 1)) ≠ 0 := by positivity
    have hediv :
        (((d ||| neg : Nat) : Int) - 2 ^ w) / ((2 : Int) ^ (w - 1)) = -1 := by
      have hrw : ((d ||| neg : Nat) : Int) - 2 ^ w =
          (((d ||| neg : Nat) : Int) - 2 ^ w + 2 ^ (w - 1)) + (-1) * (2 : Int) ^ (w - 1) := by
        ring
      rw [hrw, Int.add_mul_ediv_right _ _ hne]
      rw [Int.ediv_eq_zero_of_lt (by rw [hcast, hcast2]; push_cast; omega)
        (by rw [hcast, hcast2]; push_cast; omega)]
      ring
    rw [hediv, ofSigned_neg_one]

/-- General increment-and-wrap correctness over any positive width. -/
theorem math_inc_wrap_general (w val mn mx : Nat) (hw : 1 ≤ w)
    (h1 : mn ≤ val) (h2 : val ≤ mx) (h3 : mx < 2 ^ w) :
    math_inc_wrap w val mn mx = (if val = mx then mn else val + 1) := by
  have hval : val < 2 ^ w := lt_of_le_of_lt h2 h3
  have hmn : mn < 2 ^ w := lt_of_le_of_lt (le_trans h1 h2) h3
  have hsub : subWrap w mx val = mx - val := by
    unfold subWrap
    rw [Nat.mod_eq_of_lt hval]
    have hrw : mx + (2 ^ w - val) = (mx - val) + 2 ^ w := by omega
    rw [hrw, Nat.add_mod_right, Nat.mod_eq_of_lt (by omega)]
  simp only [math_inc_wrap]
  rw [hsub, maskVal w (mx - val) hw (by omega)]
  by_cases heq : val = mx
  · rw [if_pos (by omega), if_pos heq]
    simp only [Nat.and_zero, Nat.zero_xor, Nat.zero_or]
    rw [Nat.and_pow_two_sub_one_eq_mod, Nat.mod_eq_of_lt hmn]
  · rw [if_neg (by omega), if_neg heq]
    simp only [Nat.xor_self, Nat.and_zero, Nat.or_zero]
    rw [Nat.and_pow_two_sub_one_eq_mod, Nat.mod_eq_of_lt (by omega),
      Nat.mod_eq_of_lt (by omega)]

/-- C10: for every unsigned width w in {8, 16, 32, 64} and all values
    val, min, max of that width with min ≤ val ≤ max, math_inc_wrap_uintw
    returns min when val = max and val + 1 otherwise; and the branchless
    mask ((signed)max_diff | -(signed)max_diff) >> (w-1) yields all ones
    exactly when max - val is non-zero (arithmetic modulo 2^w). -/
theorem math_inc_wrap_spec (w val mn mx : Nat)
    (hw : w = 8 ∨ w = 16 ∨ w = 32 ∨ w = 64)
    (h1 : mn ≤ val) (h2 : val ≤ mx) (h3 : mx < 2 ^ w) :
    math_inc_wrap w val mn mx = (if val = mx then mn else val + 1) ∧
    sar w (subWrap w mx val ||| ofSigned w (- toSigned w (subWrap w mx val))) (w - 1) =
      (if subWrap w mx val = 0 then 0 else 2 ^ w - 1) := by
  have hw1 : 1 ≤ w := by rcases hw with h | h | h | h <;> omega
  have hsub : subWrap w mx val < 2 ^ w := by
    unfold subWrap
    exact Nat.mod_lt _ (Nat.two_pow_pos w)
  exact ⟨math_inc_wrap_general w val mn mx hw1 h1 h2 h3, maskVal w _ hw1 hsub⟩

/-- Witness for the increment-and-wrap theorem at width 8 with
    min = 1 ≤ val = 3 ≤ max = 7. -/
theorem math_inc_wrap_spec_witness :
    math_inc_wrap 8 3 1 7 = (if 3 = 7 then 1 else 3 + 1) ∧
    sar 8 (subWrap 8 7 3 ||| ofSigned 8 (- toSigned 8 (subWrap 8 7 3))) (8 - 1) =
      (if subWrap 8 7 3 = 0 then 0 else 2 ^ 8 - 1) :=
  math_inc_wrap_spec 8 3 1 7 (Or.inl rfl) (by decide) (by decide) (by decide)

/-! Regular-expression engine development. -/

/-- Unfolding of the descending position range at its lower end. -/
theorem descRange_lo (hi lo : Nat) (h : lo ≤ hi) :
    descRange hi lo = descRange hi (lo + 1) ++ [lo] := by
  unfold descRange
  have hn : hi + 1 - lo = (hi - lo) + 1 := by omega
  have h2 : hi + 1 - (lo + 1) = hi - lo := by omega
  have h3 : hi - (hi - lo) = lo := by omega
  rw [hn, List.range_succ, List.map_append, h2]
  simp [h3]

/-- The descending range from a position to itself is that position. -/
theorem descRange_self (hi : Nat) : descRange hi hi = [hi] := by
  unfold descRange
  have hn : hi + 1 - hi = 1 := by omega
  have h1 : List.range 1 = [0] := rfl
  rw [hn, h1, List.map_singleton, Nat.sub_zero]

/-- Members of a descending range do not exceed its upper end. -/
theorem descRange_mem_le (hi lo p : Nat) (h : p ∈ descRange hi lo) : p ≤ hi := by
  unfold descRange at h
  rw [List.mem_map] at h
  obtain ⟨k, _, hk⟩ := h
  omega

/-- Mapping a function over a descending range whose proper members all map
    to nil picks out the value at the upper end. -/
theorem descRange_flatMap {α : Type} (g : Nat → List α) :
    ∀ n hi lo, hi - lo = n → lo ≤ hi → (∀ p, p < hi → g p = []) →
      (descRange hi lo).flatMap g = g hi := by
  intro n
  induction n with
  | zero =>
    intro hi lo h1 h2 hg
    have : lo = hi := by omega
    subst this
    rw [descRange_self]
    simp
  | succ n ih =>
    intro hi lo h1 h2 hg
    rw [descRange_lo hi lo h2, List.flatMap_append]
    rw [ih hi (lo + 1) (by omega) (by omega) hg]
    have : g lo = [] := hg lo (by omega)
    simp [this]

/-- Unfolding of the ascending position range at its lower end. -/
theorem ascRange_lo (lo hi : Nat) (h : lo ≤ hi) :
    ascRange lo hi = lo :: ascRange (lo + 1) hi := by
  unfold ascRange
  have hn : hi + 1 - lo = (hi - lo) + 1 := by omega
  have h2 : hi + 1 - (lo + 1) = hi - lo := by omega
  rw [hn, h2, List.range'_succ]

/-- The ascending range from a position to itself is that position. -/
theorem ascRange_self (hi : Nat) : ascRange hi hi = [hi] := by
  unfold ascRange
  have hn : hi + 1 - hi = 1 := by omega
  rw [hn]
  rfl

/-- Mapping a function over an ascending range whose proper members all map
    to nil picks out the value at the upper end. -/
theorem ascRange_flatMap {α : Type} (g : Nat → List α) :
    ∀ n lo hi, hi - lo = n → lo ≤ hi → (∀ p, p < hi → g p = []) →
      (ascRange lo hi).flatMap g = g hi := by
  intro n
  induction n with
  | zero =>
    intro lo hi h1 h2 hg
    have : lo = hi := by omega
    subst this
    rw [ascRange_self]
    simp
  | succ n ih =>
    intro lo hi h1 h2 hg
    rw [ascRange_lo lo hi h2, List.flatMap_cons]
    rw [ih (lo + 1) hi (by omega) (by omega) hg]
    have : g lo = [] := hg lo (by omega)
    simp [this]

/-- End of a run never precedes its start. -/
theorem runEnd_ge (c : ClassSpec) (s : List Nat) (pos : Nat) : pos ≤ runEnd c s pos :=
  Nat.le_add_right pos _

/-- End of a run never exceeds the subject length. -/
theorem runEnd_le (c : ClassSpec) (s : List Nat) (pos : Nat) :
    runEnd c s pos ≤ max pos s.length := by
  unfold runEnd
  have h1 : ((s.drop pos).takeWhile (fun b => classMatch c b)).length ≤ (s.drop pos).length :=
    (List.takeWhile_sublist _).length_le
  rw [List.length_drop] at h1
  omega

/-- A byte of the class extends the run past it. -/
theorem runEnd_match (c : ClassSpec) (s : List Nat) (pos : Nat) (h : pos < s.length)
    (hm : classMatch c (s.getD pos 0) = true) :
    runEnd c s pos = runEnd c s (pos + 1) ∧ pos + 1 ≤ runEnd c s pos := by
  have hg : s[pos] = s.getD pos 0 := by
    rw [List.getD_eq_getElem?_getD, List.getElem?_eq_getElem h]
    rfl
  have hm2 : classMatch c s[pos] = true := by rw [hg]; exact hm
  have hd : s.drop pos = s[pos] :: s.drop (pos + 1) := List.drop_eq_getElem_cons h
  unfold runEnd
  rw [hd, List.takeWhile_cons_of_pos (by exact hm2), List.length_cons]
  omega

/-- A byte outside the class ends the run before it. -/
theorem runEnd_nomatch (c : ClassSpec) (s : List Nat) (pos : Nat) (h : pos < s.length)
    (hm : classMatch c (s.getD pos 0) = false) :
    runEnd c s pos = pos := by
  have hg : s[pos] = s.getD pos 0 := by
    rw [List.getD_eq_getElem?_getD, List.getElem?_eq_getElem h]
    rfl
  have hm2 : classMatch c s[pos] = false := by rw [hg]; exact hm
  have hd : s.drop pos = s[pos] :: s.drop (pos + 1) := List.drop_eq_getElem_cons h
  unfold runEnd
  rw [hd, List.takeWhile_cons_of_neg (by simp [hm2]), List.length_nil]
  omega

/-- Past the end of the subject the run is empty. -/
theorem runEnd_past (c : ClassSpec) (s : List Nat) (pos : Nat) (h : s.length ≤ pos) :
    runEnd c s pos = pos := by
  unfold runEnd
  rw [List.drop_eq_nil_of_le h]
  rfl

/-- A take-while prefix has full length exactly when the whole list
    satisfies the predicate. -/
theorem takeWhile_length_eq {α : Type} (p : α → Bool) (l : List α) :
    (l.takeWhile p).length = l.length ↔ l.all p = true := by
  induction l with
  | nil => simp
  | cons a l ih =>
    by_cases h : p a = true
    · rw [List.takeWhile_cons_of_pos h, List.length_cons, List.length_cons, List.all_cons, h]
      simpa using ih
    · have h0 : p a = false := by simpa using h
      rw [List.takeWhile_cons_of_neg (by simp [h]), List.all_cons, h0]
      simp only [List.length_nil, List.length_cons, Bool.false_and]
      constructor
      · intro hx
        omega
      · intro hx
        simp at hx

/-- The run reaches the end of the subject exactly when every remaining
    byte is of the class. -/
theorem runEnd_eq_length_iff (c : ClassSpec) (s : List Nat) (pos : Nat) (h : pos ≤ s.length) :
    runEnd c s pos = s.length ↔ ((s.drop pos).all (fun b => classMatch c b)) = true := by
  unfold runEnd
  rw [← takeWhile_length_eq (fun b => classMatch c b) (s.drop pos), List.length_drop]
  omega

/-- One-step evaluation of the any-char atom. -/
theorem matchAnyOne (s : List Nat) (f pos : Nat) (caps : Caps) (hf : 2 ≤ f) :
    matchL s f [Inst.anyChar] pos caps =
      if pos < s.length then [(pos + 1, caps)] else [] := by
  obtain ⟨f2, rfl⟩ : ∃ f2, f = f2 + 2 := ⟨f - 2, by omega⟩
  by_cases h : pos < s.length <;> simp [matchL, h]

/-- One-step evaluation of a class atom. -/
theorem matchClsOne (s : List Nat) (c : ClassSpec) (f pos : Nat) (caps : Caps) (hf : 2 ≤ f) :
    matchL s f [Inst.cls c] pos caps =
      if pos < s.length ∧ classMatch c (s.getD pos 0) = true then [(pos + 1, caps)] else [] := by
  obtain ⟨f2, rfl⟩ : ∃ f2, f = f2 + 2 := ⟨f - 2, by omega⟩
  by_cases h : pos < s.length ∧ classMatch c (s.getD pos 0) = true <;> simp [matchL, h]

/-- Greedy unbounded any-char expansion offers end positions from the end of
    the subject downward. -/
theorem starAnyG (s : List Nat) :
    ∀ n pos f (caps : Caps), s.length - pos = n → pos ≤ s.length → 2 * n + 4 ≤ f →
      starL s f 0 none true [Inst.anyChar] pos caps =
        (descRange s.length pos).map (fun p => (p, caps)) := by
  intro n
  induction n with
  | zero =>
    intro pos f caps h1 h2 hf
    have hpos : pos = s.length := by omega
    subst hpos
    obtain ⟨f2, rfl⟩ : ∃ f2, f = f2 + 1 := ⟨f - 1, by omega⟩
    have hbody : matchL s f2 [Inst.anyChar] s.length caps = [] := by
      rw [matchAnyOne s f2 s.length caps (by omega), if_neg (by omega)]
    simp [starL, hbody, descRange_self]
  | succ n ih =>
    intro pos f caps h1 h2 hf
    have hpos : pos < s.length := by omega
    obtain ⟨f2, rfl⟩ : ∃ f2, f = f2 + 1 := ⟨f - 1, by omega⟩
    have hbody : matchL s f2 [Inst.anyChar] pos caps = [(pos + 1, caps)] := by
      rw [matchAnyOne s f2 pos caps (by omega), if_pos hpos]
    simp only [starL, hbody, List.flatMap_cons, List.flatMap_nil, List.append_nil]
    rw [if_pos (show pos < pos + 1 by omega),
      ih (pos + 1) f2 caps (by omega) (by omega) (by omega),
      descRange_lo s.length pos (by omega), List.map_append]
    simp

/-- Lazy unbounded any-char expansion offers end positions from the current
    position upward. -/
theorem starAnyLzy (s : List Nat) :
    ∀ n pos f (caps : Caps), s.length - pos = n → pos ≤ s.length → 2 * n + 4 ≤ f →
      starL s f 0 none false [Inst.anyChar] pos caps =
        (ascRange pos s.length).map (fun p => (p, caps)) := by
  intro n
  induction n with
  | zero =>
    intro pos f caps h1 h2 hf
    have hpos : pos = s.length := by omega
    subst hpos
    obtain ⟨f2, rfl⟩ : ∃ f2, f = f2 + 1 := ⟨f - 1, by omega⟩
    have hbody : matchL s f2 [Inst.anyChar] s.length caps = [] := by
      rw [matchAnyOne s f2 s.length caps (by omega), if_neg (by omega)]
    simp [starL, hbody, ascRange_self]
  | succ n ih =>
    intro pos f caps h1 h2 hf
    have hpos : pos < s.length := by omega
    obtain ⟨f2, rfl⟩ : ∃ f2, f = f2 + 1 := ⟨f - 1, by omega⟩
    have hbody : matchL s f2 [Inst.anyChar] pos caps = [(pos + 1, caps)] := by
      rw [matchAnyOne s f2 pos caps (by omega), if_pos hpos]
    simp only [starL, hbody, List.flatMap_cons, List.flatMap_nil, List.append_nil]
    rw [if_pos (show pos < pos + 1 by omega),
      ih (pos + 1) f2 caps (by omega) (by omega) (by omega),
      ascRange_lo pos s.length (by omega), List.map_cons]
    simp

/-- Greedy unbounded class expansion offers the end positions of the
    matching run, longest first. -/
theorem starClsG (s : List Nat) (c : ClassSpec) :
    ∀ n pos f (caps : Caps), s.length - pos = n → pos ≤ s.length → 2 * n + 4 ≤ f →
      starL s f 0 none true [Inst.cls c] pos caps =
        (descRange (runEnd c s pos) pos).map (fun p => (p, caps)) := by
  intro n
  induction n with
  | zero =>
    intro pos f caps h1 h2 hf
    have hpos : pos = s.length := by omega
    subst hpos
    obtain ⟨f2, rfl⟩ : ∃ f2, f = f2 + 1 := ⟨f - 1, by omega⟩
    have hbody : matchL s f2 [Inst.cls c] s.length caps = [] := by
      rw [matchClsOne s c f2 s.length caps (by omega), if_neg (by omega)]
    rw [runEnd_past c s s.length (le_refl _)]
    simp [starL, hbody, descRange_self]
  | succ n ih =>
    intro pos f caps h1 h2 hf
    have hpos : pos < s.length := by omega
    obtain ⟨f2, rfl⟩ : ∃ f2, f = f2 + 1 := ⟨f - 1, by omega⟩
    by_cases hm : classMatch c (s.getD pos 0) = true
    · have hbody : matchL s f2 [Inst.cls c] pos caps = [(pos + 1, caps)] := by
        rw [matchClsOne s c f2 pos caps (by omega), if_pos ⟨hpos, hm⟩]
      obtain ⟨hre, hre2⟩ := runEnd_match c s pos hpos hm
      simp only [starL, hbody, List.flatMap_cons, List.flatMap_nil, List.append_nil]
      rw [if_pos (show pos < pos + 1 by omega),
        ih (pos + 1) f2 caps (by omega) (by omega) (by omega),
        hre, descRange_lo (runEnd c s (pos + 1)) pos (by omega), List.map_append]
      simp
    · have hbody : matchL s f2 [Inst.cls c] pos caps = [] := by
        rw [matchClsOne s c f2 pos caps (by omega), if_neg (fun hc => hm hc.2)]
      rw [runEnd_nomatch c s pos hpos (by simpa using hm)]
      simp [starL, hbody, descRange_self]

/-- Evaluation of the closing marker of group 0 followed by the end anchor:
    succeeds exactly at the end of the subject, closing the capture. -/
theorem tailGEAE (s : List Nat) (f p : Nat) (caps : Caps) (hf : 3 ≤ f) :
    matchL s f [Inst.groupEnd 0, Inst.anchorEnd] p caps =
      if p = s.length then
        [(p, caps.set 0 (some (capStart (caps.getD 0 none) p, p)))]
      else [] := by
  obtain ⟨f3, rfl⟩ : ∃ f3, f = f3 + 3 := ⟨f - 3, by omega⟩
  by_cases h : p = s.length <;> simp [matchL, h]

/-- Full evaluation of the anchored greedy-star program on any subject: one
    result, at the end of the subject, capturing the whole subject. -/
theorem matchStarGFull (s : List Nat) (f : Nat) (hf : 2 * s.length + 12 ≤ f) :
    matchL s f progStarG.insts 0 [none] = [(s.length, [some (0, s.length)])] := by
  obtain ⟨f1, rfl⟩ : ∃ f1, f = f1 + 3 := ⟨f - 3, by omega⟩
  have hstep : matchL s (f1 + 3) progStarG.insts 0 [none] =
      (starL s f1 0 none true [Inst.anyChar] 0 [some (0, 0)]).flatMap
        (fun pc => matchL s f1 [Inst.groupEnd 0, Inst.anchorEnd] pc.1 pc.2) := by
    simp [progStarG, matchL]
  rw [hstep, starAnyG s (s.length - 0) 0 f1 [some (0, 0)] rfl (by omega) (by omega),
    List.flatMap_map]
  rw [descRange_flatMap _ s.length s.length 0 (by omega) (by omega) ?hside]
  case hside =>
    intro p hp
    show matchL s f1 [Inst.groupEnd 0, Inst.anchorEnd] p [some (0, 0)] = []
    rw [tailGEAE s f1 p [some (0, 0)] (by omega), if_neg (by omega)]
  show matchL s f1 [Inst.groupEnd 0, Inst.anchorEnd] s.length [some (0, 0)] = _
  rw [tailGEAE s f1 s.length [some (0, 0)] (by omega), if_pos rfl]
  simp [capStart]

/-- Full evaluation of the anchored lazy-star program on any subject: the
    same single result as the greedy variant. -/
theorem matchStarLzyFull (s : List Nat) (f : Nat) (hf : 2 * s.length + 12 ≤ f) :
    matchL s f progStarLzy.insts 0 [none] = [(s.length, [some (0, s.length)])] := by
  obtain ⟨f1, rfl⟩ : ∃ f1, f = f1 + 3 := ⟨f - 3, by omega⟩
  have hstep : matchL s (f1 + 3) progStarLzy.insts 0 [none] =
      (starL s f1 0 none false [Inst.anyChar] 0 [some (0, 0)]).flatMap
        (fun pc => matchL s f1 [Inst.groupEnd 0, Inst.anchorEnd] pc.1 pc.2) := by
    simp [progStarLzy, matchL]
  rw [hstep, starAnyLzy s (s.length - 0) 0 f1 [some (0, 0)] rfl (by omega) (by omega),
    List.flatMap_map]
  rw [ascRange_flatMap _ s.length 0 s.length (by omega) (by omega) ?hside]
  case hside =>
    intro p hp
    show matchL s f1 [Inst.groupEnd 0, Inst.anchorEnd] p [some (0, 0)] = []
    rw [tailGEAE s f1 p [some (0, 0)] (by omega), if_neg (by omega)]
  show matchL s f1 [Inst.groupEnd 0, Inst.anchorEnd] s.length [some (0, 0)] = _
  rw [tailGEAE s f1 s.length [some (0, 0)] (by omega), if_pos rfl]
  simp [capStart]

/-- Full evaluation of the anchored greedy-plus program on any subject: no
    result on the empty subject, otherwise the same single result as the
    star variant. -/
theorem matchPlusGFull (s : List Nat) (f : Nat) (hf : 2 * s.length + 12 ≤ f) :
    matchL s f progPlusG.insts 0 [none] =
      if s.length = 0 then [] else [(s.length, [some (0, s.length)])] := by
  obtain ⟨f1, rfl⟩ : ∃ f1, f = f1 + 4 := ⟨f - 4, by omega⟩
  have hstep : matchL s (f1 + 4) progPlusG.insts 0 [none] =
      (starL s (f1 + 1) 1 none true [Inst.anyChar] 0 [some (0, 0)]).flatMap
        (fun pc => matchL s (f1 + 1) [Inst.groupEnd 0, Inst.anchorEnd] pc.1 pc.2) := by
    simp [progPlusG, matchL]
  have hone : matchL s f1 [Inst.anyChar] 0 [some (0, 0)] =
      if 0 < s.length then [(1, [some (0, 0)])] else [] := matchAnyOne s f1 0 _ (by omega)
  by_cases h : s.length = 0
  · rw [hstep, if_pos h]
    have hone0 : matchL s f1 [Inst.anyChar] 0 [some (0, 0)] = [] := by
      rw [hone, if_neg (by omega)]
    simp only [starL, hone0, List.flatMap_nil]
  · rw [hstep, if_neg h]
    have hone1 : matchL s f1 [Inst.anyChar] 0 [some (0, 0)] = [(1, [some (0, 0)])] := by
      rw [hone, if_pos (by omega)]
    simp only [starL, hone1, decOpt, List.flatMap_cons, List.flatMap_nil, List.append_nil]
    rw [starAnyG s (s.length - 1) 1 f1 [some (0, 0)] rfl (by omega) (by omega),
      List.flatMap_map]
    rw [descRange_flatMap _ (s.length - 1) s.length 1 (by omega) (by omega) ?hside]
    case hside =>
      intro p hp
      show matchL s (f1 + 1) [Inst.groupEnd 0, Inst.anchorEnd] p [some (0, 0)] = []
      rw [tailGEAE s (f1 + 1) p [some (0, 0)] (by omega), if_neg (by omega)]
    show matchL s (f1 + 1) [Inst.groupEnd 0, Inst.anchorEnd] s.length [some (0, 0)] = _
    rw [tailGEAE s (f1 + 1) s.length [some (0, 0)] (by omega), if_pos rfl]
    simp [capStart]

/-- Full evaluation of the anchored lazy-plus program on any subject: the
    same results as the greedy variant. -/
theorem matchPlusLzyFull (s : List Nat) (f : Nat) (hf : 2 * s.length + 12 ≤ f) :
    matchL s f progPlusLzy.insts 0 [none] =
      if s.length = 0 then [] else [(s.length, [some (0, s.length)])] := by
  obtain ⟨f1, rfl⟩ : ∃ f1, f = f1 + 4 := ⟨f - 4, by omega⟩
  have hstep : matchL s (f1 + 4) progPlusLzy.insts 0 [none] =
      (starL s (f1 + 1) 1 none false [Inst.anyChar] 0 [some (0, 0)]).flatMap
        (fun pc => matchL s (f1 + 1) [Inst.groupEnd 0, Inst.anchorEnd] pc.1 pc.2) := by
    simp [progPlusLzy, matchL]
  have hone : matchL s f1 [Inst.anyChar] 0 [some (0, 0)] =
      if 0 < s.length then [(1, [some (0, 0)])] else [] := matchAnyOne s f1 0 _ (by omega)
  by_cases h : s.length = 0
  · rw [hstep, if_pos h]
    have hone0 : matchL s f1 [Inst.anyChar] 0 [some (0, 0)] = [] := by
      rw [hone, if_neg (by omega)]
    simp only [starL, hone0, List.flatMap_nil]
  · rw [hstep, if_neg h]
    have hone1 : matchL s f1 [Inst.anyChar] 0 [some (0, 0)] = [(1, [some (0, 0)])] := by
      rw [hone, if_pos (by omega)]
    simp only [starL, hone1, decOpt, List.flatMap_cons, List.flatMap_nil, List.append_nil]
    rw [starAnyLzy s (s.length - 1) 1 f1 [some (0, 0)] rfl (by omega) (by omega),
      List.flatMap_map]
    rw [ascRange_flatMap _ (s.length - 1) 1 s.length (by omega) (by omega) ?hside]
    case hside =>
      intro p hp
      show matchL s (f1 + 1) [Inst.groupEnd 0, Inst.anchorEnd] p [some (0, 0)] = []
      rw [tailGEAE s (f1 + 1) p [some (0, 0)] (by omega), if_neg (by omega)]
    show matchL s (f1 + 1) [Inst.groupEnd 0, Inst.anchorEnd] s.length [some (0, 0)] = _
    rw [tailGEAE s (f1 + 1) s.length [some (0, 0)] (by omega), if_pos rfl]
    simp [capStart]

/-- One attempt worth of fuel is always available. -/
theorem bigFuel_pos (insts : List Inst) (len : Nat) : 0 < bigFuel insts len := by
  unfold bigFuel
  positivity

/-- The search loop never succeeds at positive offsets when the program
    starts with the start anchor. -/
theorem searchAnchoredPos (rest : List Inst) (gc : Nat) (s : List Nat) :
    ∀ k pos, 1 ≤ pos → searchAt (Inst.anchorStart :: rest) gc s pos k = none := by
  intro k
  induction k with
  | zero => intro pos h; rfl
  | succ k ih =>
    intro pos h
    have hmatch : matchL s (bigFuel (Inst.anchorStart :: rest) s.length)
        (Inst.anchorStart :: rest) pos (List.replicate gc none) = [] := by
      obtain ⟨b, hb⟩ : ∃ b, bigFuel (Inst.anchorStart :: rest) s.length = b + 1 :=
        ⟨bigFuel (Inst.anchorStart :: rest) s.length - 1, by
          have := bigFuel_pos (Inst.anchorStart :: rest) s.length
          omega⟩
      rw [hb]
      simp [matchL, show ¬ pos = 0 by omega]
    simp only [searchAt, hmatch]
    exact ih (pos + 1) (by omega)

/-- Behaviour of one search attempt at offset zero, given the full list of
    end states of the attempt. -/
theorem searchAt_zero (insts : List Inst) (gc : Nat) (s : List Nat) :
    searchAt insts gc s 0 (s.length + 1) =
      match matchL s (bigFuel insts s.length) insts 0 (List.replicate gc none) with
      | pc :: _ => some pc.2
      | [] => searchAt insts gc s 1 s.length := rfl

/-- regex_match on the greedy-star program always succeeds, capturing the
    whole subject. -/
theorem rmStarG (s : List Nat) (arr : List (Nat × Nat)) (cap : Nat) :
    regex_match (some progStarG) s arr cap =
      (true, commitCaptures [some (0, s.length)] arr cap) := by
  have hfuel : 2 * s.length + 12 ≤ bigFuel progStarG.insts s.length := by
    have hsize : sizeL progStarG.insts = 7 := rfl
    unfold bigFuel
    rw [hsize]
    omega
  have hm := matchStarGFull s (bigFuel progStarG.insts s.length) hfuel
  have hrepl : List.replicate progStarG.groupCount (none : Option (Nat × Nat)) = [none] := rfl
  show (match searchAt progStarG.insts progStarG.groupCount s 0 (s.length + 1) with
    | some caps => (true, commitCaptures caps arr cap)
    | none => (false, arr)) = _
  rw [searchAt_zero, hrepl, hm]

/-- regex_match on the lazy-star program always succeeds, capturing the
    whole subject. -/
theorem rmStarLzy (s : List Nat) (arr : List (Nat × Nat)) (cap : Nat) :
    regex_match (some progStarLzy) s arr cap =
      (true, commitCaptures [some (0, s.length)] arr cap) := by
  have hfuel : 2 * s.length + 12 ≤ bigFuel progStarLzy.insts s.length := by
    have hsize : sizeL progStarLzy.insts = 7 := rfl
    unfold bigFuel
    rw [hsize]
    omega
  have hm := matchStarLzyFull s (bigFuel progStarLzy.insts s.length) hfuel
  have hrepl : List.replicate progStarLzy.groupCount (none : Option (Nat × Nat)) = [none] := rfl
  show (match searchAt progStarLzy.insts progStarLzy.groupCount s 0 (s.length + 1) with
    | some caps => (true, commitCaptures caps arr cap)
    | none => (false, arr)) = _
  rw [searchAt_zero, hrepl, hm]

/-- regex_match on the greedy-plus program: fails on the empty subject,
    otherwise succeeds capturing the whole subject. -/
theorem rmPlusG (s : List Nat) (arr : List (Nat × Nat)) (cap : Nat) :
    regex_match (some progPlusG) s arr cap =
      if s.length = 0 then (false, arr)
      else (true, commitCaptures [some (0, s.length)] arr cap) := by
  have hfuel : 2 * s.length + 12 ≤ bigFuel progPlusG.insts s.length := by
    have hsize : sizeL progPlusG.insts = 7 := rfl
    unfold bigFuel
    rw [hsize]
    omega
  have hm := matchPlusGFull s (bigFuel progPlusG.insts s.length) hfuel
  have hrepl : List.replicate progPlusG.groupCount (none : Option (Nat × Nat)) = [none] := rfl
  show (match searchAt progPlusG.insts progPlusG.groupCount s 0 (s.length + 1) with
    | some caps => (true, commitCaptures caps arr cap)
    | none => (false, arr)) = _
  rw [searchAt_zero, hrepl, hm]
  by_cases h : s.length = 0
  · rw [if_pos h, if_pos h]
    have hlen : s.length = 0 := h
    rw [show s.length = 0 from h]
    rw [show searchAt progPlusG.insts progPlusG.groupCount s 1 0 = none from rfl]
  · rw [if_neg h, if_neg h]

/-- regex_match on the lazy-plus program: identical observable behaviour to
    the greedy-plus program. -/
theorem rmPlusLzy (s : List Nat) (arr : List (Nat × Nat)) (cap : Nat) :
    regex_match (some progPlusLzy) s arr cap =
      if s.length = 0 then (false, arr)
      else (true, commitCaptures [some (0, s.length)] arr cap) := by
  have hfuel : 2 * s.length + 12 ≤ bigFuel progPlusLzy.insts s.length := by
    have hsize : sizeL progPlusLzy.insts = 7 := rfl
    unfold bigFuel
    rw [hsize]
    omega
  have hm := matchPlusLzyFull s (bigFuel progPlusLzy.insts s.length) hfuel
  have hrepl : List.replicate progPlusLzy.groupCount (none : Option (Nat × Nat)) = [none] := rfl
  show (match searchAt progPlusLzy.insts progPlusLzy.groupCount s 0 (s.length + 1) with
    | some caps => (true, commitCaptures caps arr cap)
    | none => (false, arr)) = _
  rw [searchAt_zero, hrepl, hm]
  by_cases h : s.length = 0
  · rw [if_pos h, if_pos h]
    rw [show s.length = 0 from h]
    rw [show searchAt progPlusLzy.insts progPlusLzy.groupCount s 1 0 = none from rfl]
  · rw [if_neg h, if_neg h]

/-- Committing the whole-subject capture into a one-slot array. -/
theorem commitOne (a : Nat × Nat) (len : Nat) :
    commitCaptures [some (0, len)] [a] 1 = [(0, len)] := by
  simp [commitCaptures, commitGo, spanOf]

/-- C1: For every subject, including the empty subject, compiling the fully
    anchored zero-or-more wildcard pattern "^(.*)$" succeeds and regex_match
    returns true, with capture-group 0 spanning the entire subject. -/
theorem claim_anchored_star (s : List Nat) (arr : List (Nat × Nat)) (cap : Nat)
    (a : Nat × Nat) :
    regex_compile (strBytes "^(.*)$") = some progStarG ∧
    (regex_match (some progStarG) s arr cap).1 = true ∧
    regex_match (some progStarG) s [a] 1 = (true, [(0, s.length)]) := by
  refine ⟨rfl, ?_, ?_⟩
  · rw [rmStarG]
  · rw [rmStarG, commitOne]

/-- C2: The fully anchored one-or-more wildcard pattern "^(.+)$" compiles,
    rejects the empty subject, and accepts every non-empty subject with
    capture-group 0 spanning the entire subject. -/
theorem claim_anchored_plus (s : List Nat) (arr : List (Nat × Nat)) (cap : Nat)
    (a : Nat × Nat) :
    regex_compile (strBytes "^(.+)$") = some progPlusG ∧
    regex_match (some progPlusG) [] arr cap = (false, arr) ∧
    (s ≠ [] → regex_match (some progPlusG) s [a] 1 = (true, [(0, s.length)])) := by
  refine ⟨rfl, ?_, ?_⟩
  · rw [rmPlusG]
    simp
  · intro h
    rw [rmPlusG, if_neg (by rw [List.length_eq_zero]; exact h), commitOne]

/-- Witness for the one-or-more theorem at the one-byte subject "x". -/
theorem claim_anchored_plus_witness :
    strBytes "x" ≠ [] ∧
    regex_match (some progPlusG) (strBytes "x") [(5, 5)] 1 =
      (true, [(0, (strBytes "x").length)]) :=
  ⟨by decide, (claim_anchored_plus (strBytes "x") [] 0 (5, 5)).2.2 (by decide)⟩

/-- C3: Under full anchoring, the greedy and lazy variants of the same
    quantifier (the compiled programs of "^(.*)$" versus "^(.*?)$" and of
    "^(.+)$" versus "^(.+?)$") agree on pass/fail for every subject, and
    report the same capture-group 0 span on success: here the two members of
    each pair have identical observable match results. -/
theorem claim_greedy_lazy_agree (s : List Nat) (arr : List (Nat × Nat)) (cap : Nat) :
    regex_compile (strBytes "^(.*)$") = some progStarG ∧
    regex_compile (strBytes "^(.*?)$") = some progStarLzy ∧
    regex_compile (strBytes "^(.+)$") = some progPlusG ∧
    regex_compile (strBytes "^(.+?)$") = some progPlusLzy ∧
    regex_match (some progStarG) s arr cap = regex_match (some progStarLzy) s arr cap ∧
    regex_match (some progPlusG) s arr cap = regex_match (some progPlusLzy) s arr cap := by
  refine ⟨rfl, rfl, rfl, rfl, ?_, ?_⟩
  · rw [rmStarG, rmStarLzy]
  · rw [rmPlusG, rmPlusLzy]

/-- An exhausted alternation yields no end states. -/
theorem matchAltNil (s : List Nat) (rest : List Inst) (pos : Nat) (caps : Caps) :
    ∀ f, matchL s f (Inst.alt [] :: rest) pos caps = []
  | 0 => rfl
  | _+1 => rfl

/-- Evaluation of one alternation branch of the anchored alternation
    program: a mandatory greedy class repetition followed by the closing
    marker of group 0 and the end anchor, from position 0. -/
theorem matchClsPlusTail (s : List Nat) (c : ClassSpec) (f : Nat)
    (hf : 2 * s.length + 10 ≤ f) :
    matchL s f [Inst.quant 1 none true [Inst.cls c], Inst.groupEnd 0, Inst.anchorEnd] 0
      [some (0, 0)] =
      (if 0 < s.length ∧ classMatch c (s.getD 0 0) = true ∧ runEnd c s 1 = s.length
       then [(s.length, [some (0, s.length)])] else []) := by
  obtain ⟨f1, rfl⟩ : ∃ f1, f = f1 + 2 := ⟨f - 2, by omega⟩
  have hstep : matchL s (f1 + 2)
      [Inst.quant 1 none true [Inst.cls c], Inst.groupEnd 0, Inst.anchorEnd] 0 [some (0, 0)] =
      ((matchL s f1 [Inst.cls c] 0 [some (0, 0)]).flatMap
        (fun pc => starL s f1 0 none true [Inst.cls c] pc.1 pc.2)).flatMap
        (fun pc => matchL s (f1 + 1) [Inst.groupEnd 0, Inst.anchorEnd] pc.1 pc.2) := rfl
  rw [hstep, matchClsOne s c f1 0 [some (0, 0)] (by omega)]
  by_cases hc : 0 < s.length ∧ classMatch c (s.getD 0 0) = true
  · rw [if_pos hc]
    have h1le : 1 ≤ runEnd c s 1 := runEnd_ge c s 1
    have hrle : runEnd c s 1 ≤ s.length := by
      have := runEnd_le c s 1
      omega
    simp only [List.flatMap_cons, List.flatMap_nil, List.append_nil]
    rw [starClsG s c (s.length - 1) 1 f1 [some (0, 0)] rfl (by omega) (by omega),
      List.flatMap_map]
    by_cases hr : runEnd c s 1 = s.length
    · rw [descRange_flatMap _ (runEnd c s 1 - 1) (runEnd c s 1) 1 (by omega) (by omega) ?hside]
      case hside =>
        intro p hp
        show matchL s (f1 + 1) [Inst.groupEnd 0, Inst.anchorEnd] p [some (0, 0)] = []
        rw [tailGEAE s (f1 + 1) p [some (0, 0)] (by omega), if_neg (by omega)]
      rw [if_pos ⟨hc.1, hc.2, hr⟩]
      show matchL s (f1 + 1) [Inst.groupEnd 0, Inst.anchorEnd] (runEnd c s 1) [some (0, 0)] = _
      rw [tailGEAE s (f1 + 1) (runEnd c s 1) [some (0, 0)] (by omega), if_pos hr]
      simp [capStart, hr]
    · rw [if_neg (fun hx => hr hx.2.2)]
      rw [List.flatMap_eq_nil_iff.mpr ?henil]
      case henil =>
        intro x hx
        have hple : x ≤ runEnd c s 1 := descRange_mem_le _ _ _ hx
        show matchL s (f1 + 1) [Inst.groupEnd 0, Inst.anchorEnd] x [some (0, 0)] = []
        rw [tailGEAE s (f1 + 1) x [some (0, 0)] (by omega), if_neg (by omega)]
  · rw [if_neg hc, if_neg (fun hx => hc ⟨hx.1, hx.2.1⟩)]
    rfl

/-- Full evaluation of the anchored alternation program on any subject:
    branch results in left-to-right order. -/
theorem matchBranchFull (s : List Nat) (f : Nat) (hf : 2 * s.length + 16 ≤ f) :
    matchL s f progBranch.insts 0 [none] =
      (if 0 < s.length ∧ classMatch spCls (s.getD 0 0) = true ∧ runEnd spCls s 1 = s.length
       then [(s.length, [some (0, s.length)])] else []) ++
      (if 0 < s.length ∧ classMatch nspCls (s.getD 0 0) = true ∧ runEnd nspCls s 1 = s.length
       then [(s.length, [some (0, s.length)])] else []) := by
  obtain ⟨f1, rfl⟩ : ∃ f1, f = f1 + 4 := ⟨f - 4, by omega⟩
  have hstep : matchL s (f1 + 4) progBranch.insts 0 [none] =
      matchL s (f1 + 1)
        [Inst.quant 1 none true [Inst.cls spCls], Inst.groupEnd 0, Inst.anchorEnd] 0
        [some (0, 0)] ++
      (matchL s f1
        [Inst.quant 1 none true [Inst.cls nspCls], Inst.groupEnd 0, Inst.anchorEnd] 0
        [some (0, 0)] ++
       matchL s f1 (Inst.alt [] :: [Inst.groupEnd 0, Inst.anchorEnd]) 0 [some (0, 0)]) := rfl
  rw [hstep, matchClsPlusTail s spCls (f1 + 1) (by omega),
    matchClsPlusTail s nspCls f1 (by omega), matchAltNil, List.append_nil]

/-- The whitespace class tests exactly the whitespace bytes. -/
theorem classMatch_sp (b : Nat) : classMatch spCls b = isSpaceByte b := by
  simp [classMatch, spCls, metaMatch]

/-- The non-whitespace class tests exactly the non-whitespace bytes. -/
theorem classMatch_nsp (b : Nat) : classMatch nspCls b = ! isSpaceByte b := by
  simp [classMatch, nspCls, metaMatch]

/-- regex_match on the alternation program, as a function of the two branch
    conditions. -/
theorem rmBranch (s : List Nat) (arr : List (Nat × Nat)) (cap : Nat) :
    regex_match (some progBranch) s arr cap =
      if (0 < s.length ∧ classMatch spCls (s.getD 0 0) = true ∧ runEnd spCls s 1 = s.length)
         ∨ (0 < s.length ∧ classMatch nspCls (s.getD 0 0) = true ∧ runEnd nspCls s 1 = s.length)
      then (true, commitCaptures [some (0, s.length)] arr cap)
      else (false, arr) := by
  have hfuel : 2 * s.length + 16 ≤ bigFuel progBranch.insts s.length := by
    have hsize : sizeL progBranch.insts = 14 := rfl
    unfold bigFuel
    rw [hsize]
    omega
  have hm := matchBranchFull s (bigFuel progBranch.insts s.length) hfuel
  have hrepl : List.replicate progBranch.groupCount (none : Option (Nat × Nat)) = [none] := rfl
  show (match searchAt progBranch.insts progBranch.groupCount s 0 (s.length + 1) with
    | some caps => (true, commitCaptures caps arr cap)
    | none => (false, arr)) = _
  rw [searchAt_zero, hrepl, hm]
  have hnone : searchAt progBranch.insts progBranch.groupCount s 1 s.length = none :=
    searchAnchoredPos _ progBranch.groupCount s s.length 1 (le_refl 1)
  by_cases h1 : 0 < s.length ∧ classMatch spCls (s.getD 0 0) = true ∧ runEnd spCls s 1 = s.length
  · rw [if_pos h1, if_pos (Or.inl h1)]
    rfl
  · rw [if_neg h1]
    by_cases h2 : 0 < s.length ∧ classMatch nspCls (s.getD 0 0) = true ∧
        runEnd nspCls s 1 = s.length
    · rw [if_pos h2, if_pos (Or.inr h2)]
      rfl
    · rw [if_neg h2, if_neg (by rintro (h | h); exact h1 h; exact h2 h)]
      simp only [List.nil_append, hnone]

/-- C4: The compiled pattern `^(\s+|\S+)$`, whose alternation branches are
    tried left-to-right with the first success winning, accepts exactly the
    non-empty subjects that are all-whitespace or all-non-whitespace, and
    rejects any subject mixing the two classes. -/
theorem claim_branch_pattern (s : List Nat) (arr : List (Nat × Nat)) (cap : Nat) :
    regex_compile (strBytes "^(\\s+|\\S+)$") = some progBranch ∧
    ((regex_match (some progBranch) s arr cap).1 = true ↔
      (s ≠ [] ∧ (s.all isSpaceByte = true ∨ s.all (fun b => ! isSpaceByte b) = true))) := by
  refine ⟨rfl, ?_⟩
  have hiff :
      ((0 < s.length ∧ classMatch spCls (s.getD 0 0) = true ∧ runEnd spCls s 1 = s.length)
        ∨ (0 < s.length ∧ classMatch nspCls (s.getD 0 0) = true ∧
            runEnd nspCls s 1 = s.length)) ↔
      (s ≠ [] ∧ (s.all isSpaceByte = true ∨ s.all (fun b => ! isSpaceByte b) = true)) := by
    rcases s with _ | ⟨b, t⟩
    · simp
    · have hr1 := runEnd_eq_length_iff spCls (b :: t) 1 (by simp)
      have hr2 := runEnd_eq_length_iff nspCls (b :: t) 1 (by simp)
      have hdrop : (b :: t).drop 1 = t := rfl
      have hfun1 : (fun x => classMatch spCls x) = isSpaceByte := funext classMatch_sp
      have hfun2 : (fun x => classMatch nspCls x) = (fun x => ! isSpaceByte x) :=
        funext classMatch_nsp
      rw [hdrop, hfun1] at hr1
      rw [hdrop, hfun2] at hr2
      have hget : (b :: t).getD 0 0 = b := rfl
      rw [hget]
      constructor
      · rintro (⟨hl, hm, hr⟩ | ⟨hl, hm, hr⟩)
        · refine ⟨by simp, Or.inl ?_⟩
          rw [classMatch_sp] at hm
          rw [List.all_cons, hm, Bool.true_and]
          exact hr1.mp hr
        · refine ⟨by simp, Or.inr ?_⟩
          rw [classMatch_nsp] at hm
          rw [List.all_cons, hm, Bool.true_and]
          exact hr2.mp hr
      · rintro ⟨hne, hall | hall⟩
        · rw [List.all_cons, Bool.and_eq_true] at hall
          exact Or.inl ⟨by simp, by rw [classMatch_sp]; exact hall.1, hr1.mpr hall.2⟩
        · rw [List.all_cons, Bool.and_eq_true] at hall
          exact Or.inr ⟨by simp, by rw [classMatch_nsp]; exact hall.1, hr2.mpr hall.2⟩
  rw [rmBranch]
  by_cases h : (0 < s.length ∧ classMatch spCls (s.getD 0 0) = true ∧
      runEnd spCls s 1 = s.length)
      ∨ (0 < s.length ∧ classMatch nspCls (s.getD 0 0) = true ∧ runEnd nspCls s 1 = s.length)
  · rw [if_pos h]
    constructor
    · intro _
      exact hiff.mp h
    · intro _
      rfl
  · rw [if_neg h]
    constructor
    · intro hx
      simp at hx
    · intro hx
      exact absurd (hiff.mpr hx) h

/-- C5: Each of the patterns "++??.+*?" (quantifier with no preceding
    atom), "(())()(" (unbalanced parenthesis) and "[\\s][" (unterminated
    character class) fails to compile: regex_compile returns none, and since
    compilation is a total function into an option, no partially built
    program is observable to the caller. -/
theorem claim_invalid_patterns :
    regex_compile (strBytes "++??.+*?") = none ∧
    regex_compile (strBytes "(())()(") = none ∧
    regex_compile (strBytes "[\\s][") = none :=
  ⟨rfl, rfl, rfl⟩

/-- C6 counterexample: the valid pattern "test" compiles to a program, yet
    the in-place variant with zero-capacity caller storage (the test
    suite's zero-initialized program structure) rejects it, so regex_parse
    does not return true exactly when regex_compile returns a program. -/
theorem claim_parse_into_counterexample :
    regex_parse 0 (strBytes "test") = false ∧
    (regex_compile (strBytes "test")).isSome = true :=
  ⟨rfl, rfl⟩

/-- C6 (amended): regex_parse applies the same pattern validation rules as
    regex_compile but additionally requires the compiled program to fit the
    caller-supplied storage: it returns true exactly when regex_compile
    returns a program whose code size is within the given capacity. -/
theorem claim_parse_into_amended (capacity : Nat) (pat : List Nat) :
    regex_parse capacity pat = true ↔
      ∃ pr, regex_compile pat = some pr ∧ sizeL pr.insts ≤ capacity := by
  unfold regex_parse
  cases h : regex_compile pat with
  | none => simp
  | some pr => simp

/-- C7: the escape \\20 in a pattern denotes a literal space byte: the
    compiled program of "^(TEST\\20REGEX)$" carries the literal byte 32,
    matching "TEST REGEX" returns true with capture 0 spanning the whole
    ten-byte subject, and matching " TEST REGEX" (leading space) returns
    false with the capture array untouched. -/
theorem claim_hex_space_escape :
    regex_compile (strBytes "^(TEST\\20REGEX)$") =
      some ⟨[Inst.anchorStart, Inst.groupStart 0, Inst.lit 84, Inst.lit 69, Inst.lit 83,
        Inst.lit 84, Inst.lit 32, Inst.lit 82, Inst.lit 69, Inst.lit 71, Inst.lit 69,
        Inst.lit 88, Inst.groupEnd 0, Inst.anchorEnd], 1⟩ ∧
    regex_match (regex_compile (strBytes "^(TEST\\20REGEX)$")) (strBytes "TEST REGEX")
      [(7, 7)] 1 = (true, [(0, 10)]) ∧
    spanStr (strBytes "TEST REGEX") (0, 10) = strBytes "TEST REGEX" ∧
    regex_match (regex_compile (strBytes "^(TEST\\20REGEX)$")) (strBytes " TEST REGEX")
      [(7, 7)] 1 = (false, [(7, 7)]) :=
  ⟨rfl, rfl, rfl, rfl⟩

/-- Entries of the caller array at or beyond the requested capacity are
    never written by the capture commit. -/
theorem commitGo_excess (caps : Caps) (capacity : Nat) :
    ∀ (arr : List (Nat × Nat)) (j i : Nat), capacity ≤ j + i →
      (commitGo caps capacity j arr)[i]? = arr[i]? := by
  intro arr
  induction arr with
  | nil => intro j i h; rfl
  | cons a arr ih =>
    intro j i h
    cases i with
    | zero =>
      simp only [commitGo]
      rw [List.getElem?_cons_zero, List.getElem?_cons_zero, if_neg (fun hx => by omega)]
    | succ i =>
      simp only [commitGo]
      rw [List.getElem?_cons_succ, List.getElem?_cons_succ]
      exact ih (j + 1) i (by omega)

/-- C8: on a successful match the capture array is populated positionally
    in the left-to-right order of group-opening delimiters; a group on an
    untaken alternation branch reports an empty span; and entries of the
    caller array at or beyond the capacity are not written.  The conjuncts
    instantiate the test suite's pattern
    "matchthis(\\s+|\\S+)!endofline([abcd\\\\]*)" on the subject ending in
    "string!endofline\\aabbcc\\": group 0 is "string", group 1 is
    "\\aabbcc\\", the third entry is untouched; with capacity 1 only group
    0 is written; and "(a)|(b)" matched against "b" reports an empty span
    for the untaken group 0. -/
theorem claim_capture_population (caps : Caps) (arr : List (Nat × Nat))
    (capacity i : Nat) (h : capacity ≤ i) :
    (commitCaptures caps arr capacity)[i]? = arr[i]? ∧
    regex_compile (strBytes "(a)|(b)") =
      some ⟨[Inst.alt [[Inst.groupStart 0, Inst.lit 97, Inst.groupEnd 0],
        [Inst.groupStart 1, Inst.lit 98, Inst.groupEnd 1]]], 2⟩ ∧
    regex_match (regex_compile (strBytes "(a)|(b)")) (strBytes "b") [(9, 9), (9, 9)] 2 =
      (true, [(0, 0), (0, 1)]) ∧
    (regex_compile (strBytes "matchthis(\\s+|\\S+)!endofline([abcd\\\\]*)")).isSome = true ∧
    regex_match (regex_compile (strBytes "matchthis(\\s+|\\S+)!endofline([abcd\\\\]*)"))
      (strBytes "but nonmixed at end will matchthisstring!endofline\\aabbcc\\")
      [(9, 9), (9, 9), (9, 9)] 3 = (true, [(34, 6), (50, 8), (9, 9)]) ∧
    spanStr (strBytes "but nonmixed at end will matchthisstring!endofline\\aabbcc\\")
      (34, 6) = strBytes "string" ∧
    spanStr (strBytes "but nonmixed at end will matchthisstring!endofline\\aabbcc\\")
      (50, 8) = strBytes "\\aabbcc\\" ∧
    regex_match (regex_compile (strBytes "matchthis(\\s+|\\S+)!endofline([abcd\\\\]*)"))
      (strBytes "but nonmixed at end will matchthisstring!endofline\\aabbcc\\")
      [(9, 9), (9, 9)] 1 = (true, [(34, 6), (9, 9)]) :=
  ⟨commitGo_excess caps capacity arr 0 i (by omega), rfl, rfl, rfl, rfl, rfl, rfl, rfl⟩

/-- Witness for the capture-population theorem: with capacity 0 the entry at
    index 2 of the caller array is untouched. -/
theorem claim_capture_population_witness :
    (commitCaptures [some (1, 2)] [(3, 3), (4, 4), (5, 5)] 0)[2]? = some (5, 5) :=
  (claim_capture_population [some (1, 2)] [(3, 3), (4, 4), (5, 5)] 0 2 (by decide)).1

/-- A match attempt that meets an unrecognized instruction is abandoned
    with no result. -/
theorem matchInvalidHead (s : List Nat) (b : Nat) (rest : List Inst) (pos : Nat)
    (caps : Caps) : ∀ f, matchL s f (Inst.invalid b :: rest) pos caps = []
  | 0 => rfl
  | _+1 => rfl

/-- The substring search fails at every offset when the program starts with
    an unrecognized instruction. -/
theorem searchInvalidHead (b : Nat) (rest : List Inst) (gc : Nat) (s : List Nat) :
    ∀ k pos, searchAt (Inst.invalid b :: rest) gc s pos k = none := by
  intro k
  induction k with
  | zero => intro pos; rfl
  | succ k ih =>
    intro pos
    simp only [searchAt, matchInvalidHead]
    exact ih (pos + 1)

/-- C9: after the first code byte of the compiled program of "(TEST REGEX)"
    is overwritten with the invalid opcode 128, regex_match returns false
    (no-match) on every subject and leaves the capture array untouched: in
    the model the unrecognized instruction aborts every match attempt
    locally and the call returns normally, never crashing. -/
theorem claim_corrupted_program (s : List Nat) (arr : List (Nat × Nat)) (cap : Nat) :
    regex_compile (strBytes "(TEST REGEX)") = some progExact ∧
    regex_match (some (corruptProg progExact)) s arr cap = (false, arr) := by
  refine ⟨rfl, ?_⟩
  show (match searchAt (corruptProg progExact).insts (corruptProg progExact).groupCount s 0
      (s.length + 1) with
    | some caps => (true, commitCaptures caps arr cap)
    | none => (false, arr)) = _
  have hc : (corruptProg progExact).insts = Inst.invalid 128 :: progExact.insts.tail := rfl
  rw [hc, searchInvalidHead]

end Foundation
